import Mathlib

/-!
Verification development for the artificer image-building pipeline
(src/main.go).  The tar archiver (`createTarFile` / `tarwalk`) and the
image mutation pipeline (`buildNewImage` / `applyConfig` /
`addNewLayerFromFiles`) are embedded shallowly below; theorems about the
embedded definitions settle the specification claims.

Modelling conventions:
* Paths are `String`s over `/`-separated components, as produced by Go's
  `path/filepath` on Unix.  The helpers `baseName`, `goClean`, `goJoin`
  and `trimPrefixStr` embed `filepath.Base`, `filepath.Clean`,
  `filepath.Join` (composed with `filepath.ToSlash`, which is the
  identity on Unix) and `strings.TrimPrefix`; `goJoin` performs the full
  lexical cleaning `filepath.Join` applies, so the model follows the
  code also on non-clean source paths such as `./foo`.
* The filesystem is the inductive value `FSNode`: regular files with
  byte contents, directories with a named-children listing (in arbitrary
  on-disk enumeration order), symlinks with an optional resolved target,
  and sockets as the representative special file that `archive/tar`
  cannot encode.
* `archive/tar` semantics follow the Go standard library:
  `tar.FileInfoHeader` succeeds for files, directories and symlinks (for
  a directory it appends a trailing slash to the name) and fails for
  sockets; writing a header emits a metadata entry, and `io.Copy`
  appends content bytes only for regular files.
-/

/-- Go `strings.TrimPrefix s pre`: drop `pre` from `s` when it is a
literal prefix, otherwise return `s` unchanged. -/
def trimPrefixStr (s pre : String) : String :=
  if pre.data.isPrefixOf s.data then String.mk (s.data.drop pre.data.length) else s

/-- Cut a slash path at every `/`, keeping empty components (so `a//b`
yields `a`, ``, `b`); the component view Go's `filepath.Clean` lexical
processing operates on. -/
def splitSlash : List Char → List (List Char)
  | [] => [[]]
  | c :: rest =>
    if c = '/' then [] :: splitSlash rest
    else
      match splitSlash rest with
      | [] => [[c]]
      | comp :: comps => (c :: comp) :: comps

/-- Join components back with `/` separators (the inverse of
`splitSlash` on component lists). -/
def joinComps : List (List Char) → List Char
  | [] => []
  | [c] => c
  | c :: rest => c ++ '/' :: joinComps rest

/-- The component loop of Go `filepath.Clean`: empty and `.` components
are dropped; `..` pops the preceding component, accumulates at the
front of a relative path, and is dropped at the root of a rooted
path.  `out` is the stack of kept components, most recent first. -/
def cleanStack (rooted : Bool) (out : List (List Char)) :
    List (List Char) → List (List Char)
  | [] => out.reverse
  | c :: rest =>
    if c = [] ∨ c = ['.'] then cleanStack rooted out rest
    else if c = ['.', '.'] then
      match out with
      | [] => if rooted then cleanStack rooted [] rest
              else cleanStack rooted [['.', '.']] rest
      | top :: out2 =>
        if top = ['.', '.'] then cleanStack rooted (c :: out) rest
        else cleanStack rooted out2 rest
    else cleanStack rooted (c :: out) rest

/-- Go `filepath.Clean` for slash paths: split into components, run the
lexical component loop, reassemble; an empty result collapses to `.`
(or `/` for a rooted path). -/
def goClean (p : String) : String :=
  if p = "" then "."
  else if p.data.head? = some '/' then
    if joinComps (cleanStack true [] (splitSlash p.data)) = [] then "/"
    else String.mk ('/' :: joinComps (cleanStack true [] (splitSlash p.data)))
  else
    if joinComps (cleanStack false [] (splitSlash p.data)) = [] then "."
    else String.mk (joinComps (cleanStack false [] (splitSlash p.data)))

/-- Go `filepath.Join a b` (then `filepath.ToSlash`): empty operands
disappear, the rest are joined with `/` and the result is `Clean`ed. -/
def goJoin (a b : String) : String :=
  if a = "" then (if b = "" then "" else goClean b)
  else if b = "" then goClean a
  else goClean (a ++ "/" ++ b)

/-- The characters after the last `/` of a character list. -/
def lastComp (l : List Char) : List Char :=
  (l.reverse.takeWhile (fun c => c ≠ '/')).reverse

/-- The trailing run of `/` characters removed. -/
def dropTrailingSlashes (l : List Char) : List Char :=
  (l.reverse.dropWhile (fun c => c = '/')).reverse

/-- Go `filepath.Base`: `"."` for the empty path, `"/"` for all-slash
paths, otherwise the last component with trailing slashes removed. -/
def baseName (p : String) : String :=
  if p = "" then "."
  else
    let s := dropTrailingSlashes p.data
    if s = [] then "/" else String.mk (lastComp s)

/-- The first path component of an archive entry name (its name at the
image root). -/
def rootName (s : String) : String :=
  String.mk (s.data.takeWhile (fun c => c ≠ '/'))

/-- A valid directory-entry name, as `Readdirnames` can return it:
nonempty, not `.` or `..`, and containing no `/`. -/
def validName (n : String) : Prop :=
  n ≠ "" ∧ n ≠ "." ∧ n ≠ ".." ∧ '/' ∉ n.data

instance (n : String) : Decidable (validName n) := by
  unfold validName; infer_instance

/-- The component-level counterpart of `validName`. -/
def simpleComp (c : List Char) : Prop :=
  c ≠ [] ∧ c ≠ ['.'] ∧ c ≠ ['.', '.'] ∧ '/' ∉ c

instance (c : List Char) : Decidable (simpleComp c) := by
  unfold simpleComp; infer_instance

/-- A source path in `filepath.Clean` form built from normal components
only: nonempty, relative, with no `.` or `..` segments and no leading,
trailing or repeated slashes.  On such paths the cleaning inside
`filepath.Join` is the identity, so the walker's path arithmetic is
exact. -/
def simplePath (p : String) : Prop :=
  ∀ c ∈ splitSlash p.data, simpleComp c

instance (p : String) : Decidable (simplePath p) := by
  unfold simplePath; infer_instance

/-- A filesystem node: a regular file with its bytes, a directory with
its children listed in on-disk enumeration order, a symlink together
with the node its target chain resolves to (`none` when broken), or a
socket (the special file `archive/tar` rejects). -/
inductive FSNode where
  | file (content : List Nat)
  | dir (children : List (String × FSNode))
  | symlink (target : Option FSNode)
  | socket

/-- Go `os.Stat`: resolve the symlink chain; `none` models the
`ENOENT` failure on a broken link.  All other nodes denote
themselves. -/
def statNode : FSNode → Option FSNode
  | FSNode.symlink (some t) => statNode t
  | FSNode.symlink none => none
  | n => some n

/-- `FileInfo.IsDir`. -/
def FSNode.isDir : FSNode → Bool
  | FSNode.dir _ => true
  | _ => false

/-- The type flag of an emitted tar header (`tar.TypeReg`,
`tar.TypeDir`, `tar.TypeSymlink`). -/
inductive EType where
  | reg
  | dir
  | symlink
deriving DecidableEq, Repr

/-- One entry of the produced tar stream: the header name, the header
type flag, and the content bytes copied after the header (empty for
anything but a regular file). -/
structure TarEntry where
  name : String
  typ : EType
  content : List Nat
deriving DecidableEq, Repr

/-- Ordering of directory children by name, as `filepath.Walk` sorts
the names returned by `readDirNames`. -/
def childLE (a b : String × FSNode) : Prop := a.1 ≤ b.1

instance : DecidableRel childLE :=
  fun a b => inferInstanceAs (Decidable (a.1 ≤ b.1))

instance : IsTotal (String × FSNode) childLE :=
  ⟨fun a b => le_total a.1 b.1⟩

instance : IsTrans (String × FSNode) childLE :=
  ⟨fun _ _ _ hab hbc => le_trans hab hbc⟩

/-- `filepath.Walk` visits the children of a directory in lexicographic
name order, independent of the enumeration order of the listing. -/
def sortChildren (l : List (String × FSNode)) : List (String × FSNode) :=
  List.insertionSort childLE l

theorem permSizeOfEq {α} [SizeOf α] {l1 l2 : List α} (h : List.Perm l1 l2) :
    sizeOf l1 = sizeOf l2 := by
  induction h with
  | nil => rfl
  | cons x _ ih => simp only [List.cons.sizeOf_spec]; omega
  | swap x y l => simp only [List.cons.sizeOf_spec]; omega
  | trans _ _ ih1 ih2 => exact ih1.trans ih2

theorem sizeOf_sortChildren (l : List (String × FSNode)) :
    sizeOf (sortChildren l) = sizeOf l :=
  permSizeOfEq (List.perm_insertionSort childLE l)

/-- The name stored in an emitted header: `tar.FileInfoHeader` fills in
`info.Name()` (the base name of the visited path), and `tarwalk`
overwrites it with
`filepath.ToSlash(filepath.Join(baseDir, strings.TrimPrefix(path, source)))`
whenever `baseDir` is nonempty (src/main.go lines 207-214). -/
def entryName (source baseDir path nm : String) : String :=
  if baseDir = "" then nm else goJoin baseDir (trimPrefixStr path source)

mutual

/-- The walk function `tarwalk` passes to `filepath.Walk`
(src/main.go lines 202-235), applied to the node at `path` whose
`info.Name()` is `nm`: build the header via `tar.FileInfoHeader`
(failing on sockets), rewrite its name when `baseDir` is nonempty,
write the header, and copy content bytes only for regular files;
directories recurse over their children in sorted name order. -/
def walkNode (source baseDir path nm : String) (node : FSNode) :
    Except String (List TarEntry) :=
  match node with
  | FSNode.socket => Except.error "archive/tar: sockets not supported"
  | FSNode.file v =>
    Except.ok [TarEntry.mk (entryName source baseDir path nm) EType.reg v]
  | FSNode.symlink _ =>
    Except.ok [TarEntry.mk (entryName source baseDir path nm) EType.symlink []]
  | FSNode.dir children =>
    let nmDir := if baseDir = "" then nm ++ "/" else entryName source baseDir path nm
    match walkChildren source baseDir path (sortChildren children) with
    | Except.error e => Except.error e
    | Except.ok rest => Except.ok (TarEntry.mk nmDir EType.dir [] :: rest)
termination_by sizeOf node
decreasing_by
  simp only [FSNode.dir.sizeOf_spec, sizeOf_sortChildren]; omega

/-- `filepath.Walk`'s recursion over the sorted children of a
directory: each child is visited at `filepath.Join(path, name)`; any
error aborts the whole walk. -/
def walkChildren (source baseDir path : String) (l : List (String × FSNode)) :
    Except String (List TarEntry) :=
  match l with
  | [] => Except.ok []
  | (n, c) :: rest =>
    match walkNode source baseDir (goJoin path n) n c with
    | Except.error e => Except.error e
    | Except.ok es =>
      match walkChildren source baseDir path rest with
      | Except.error e => Except.error e
      | Except.ok es2 => Except.ok (es ++ es2)
termination_by sizeOf l
decreasing_by
  · simp only [List.cons.sizeOf_spec, Prod.mk.sizeOf_spec]; omega
  · simp only [List.cons.sizeOf_spec]; omega

end

/-- `tarwalk` (src/main.go lines 191-235): `os.Stat` the source (an
error on a broken symlink aborts), set `baseDir` to the base name of
the source iff the stat result is a directory, then walk the tree
starting from the `os.Lstat` view of the source path. -/
def tarwalk (source : String) (node : FSNode) : Except String (List TarEntry) :=
  match statNode node with
  | none => Except.error ("stat " ++ source ++ ": no such file or directory")
  | some info =>
    let baseDir := if info.isDir then baseName source else ""
    walkNode source baseDir source (baseName source) node

/-- `createTarFile` (src/main.go lines 178-189): walk every source path
in the order given, concatenating the emitted entries into one tar
stream; the first error aborts the whole archive.  Each source path is
paired with the filesystem node it resolves to under `os.Lstat`. -/
def createTarFile (sources : List (String × FSNode)) :
    Except String (List TarEntry) :=
  match sources with
  | [] => Except.ok []
  | (p, n) :: rest =>
    match tarwalk p n with
    | Except.error e => Except.error e
    | Except.ok es =>
      match createTarFile rest with
      | Except.error e => Except.error e
      | Except.ok es2 => Except.ok (es ++ es2)

/-- `v1.Config` as `applyConfig` touches it: the environment list, the
command array, and a representative untouched field (`WorkingDir`)
witnessing that the remaining configuration is carried over. -/
structure GoConfig where
  Env : List String
  Cmd : List String
  WorkingDir : String
deriving DecidableEq, Repr

/-- `v1.ConfigFile`: the runtime config, the creation timestamp
(seconds), the rootfs diff-id history (one diff-id per layer, in layer
order), and a representative untouched field (`Architecture`).  A
diff-id is a pure function of a layer's uncompressed content and is
modelled by that content itself (the entry list). -/
structure ConfigFile where
  Architecture : String
  Created : Nat
  Config : GoConfig
  DiffIDs : List (List TarEntry)
deriving DecidableEq, Repr

/-- A layer: its uncompressed tar content.  Its diff-id is modelled by
the content itself. -/
structure Layer where
  entries : List TarEntry
deriving DecidableEq, Repr

deriving instance DecidableEq for Except

/-- A `v1.Image` as the pipeline consumes it: the result of retrieving
its config file (retrieval of a remote/malformed config can fail), and
its ordered layer list. -/
structure Image where
  configFile : Except String ConfigFile
  layers : List Layer
deriving DecidableEq, Repr

/-- Modelled from the spec: `mutate.Config` of the registry library
(not part of this repository's sources) returns a new image whose
config blob carries the replacement runtime config, leaving the layer
list untouched; it fails when the base config cannot be obtained
(spec §4.3: a value-returning transformation recomputing the config
blob). -/
def mutateConfig (img : Image) (cfg : GoConfig) : Except String Image :=
  match img.configFile with
  | Except.error e => Except.error e
  | Except.ok cf =>
    Except.ok { img with configFile := Except.ok { cf with Config := cfg } }

/-- Modelled from the spec: `mutate.CreatedAt` of the registry library
(not part of this repository's sources) returns a new image whose
config carries the given creation timestamp (spec §4.1/§4.3: stamps a
fresh creation timestamp). -/
def mutateCreatedAt (img : Image) (t : Nat) : Except String Image :=
  match img.configFile with
  | Except.error e => Except.error e
  | Except.ok cf =>
    Except.ok { img with configFile := Except.ok { cf with Created := t } }

/-- Modelled from the spec: `mutate.AppendLayers` of the registry
library (not part of this repository's sources) returns a new image
with the layer appended at the end of the layer ordering and its
diff-id appended at the end of the config's diff-id history
(spec §4.3: base layers retain their original order, the new diff-id
is included last in history). -/
def mutateAppendLayers (img : Image) (l : Layer) : Except String Image :=
  match img.configFile with
  | Except.error e => Except.error e
  | Except.ok cf =>
    Except.ok
      { configFile := Except.ok { cf with DiffIDs := cf.DiffIDs ++ [l.entries] }
        layers := img.layers ++ [l] }

/-- `applyConfig` (src/main.go lines 86-105): fetch the config file
(wrapping a failure as "creating config file"), overwrite its `Env`
with the override list and its `Cmd` with the one-element array holding
the whole command string, apply the new config, and stamp the current
time (`time.Now()` is passed in as `now`).  Each stage failure is
wrapped with the stage name, `errors.Wrap` style (`"msg: cause"`). -/
def applyConfig (image : Image) (env : List String) (cmd : String) (now : Nat) :
    Except String Image :=
  match image.configFile with
  | Except.error e => Except.error ("creating config file: " ++ e)
  | Except.ok imageConfig =>
    let cfg : GoConfig := { imageConfig.Config with Env := env, Cmd := [cmd] }
    match mutateConfig image cfg with
    | Except.error e => Except.error ("applying new config: " ++ e)
    | Except.ok newImage =>
      match mutateCreatedAt newImage now with
      | Except.error e => Except.error ("setting created-at timestamp: " ++ e)
      | Except.ok newImage2 => Except.ok newImage2

/-- `addNewLayerFromFiles` (src/main.go lines 107-131): build the tar
archive from the file list (wrapping a failure as "creating tar
archive"), wrap it as a layer, and append the layer (wrapping a failure
as "appending Layer").  Layer construction from an in-memory buffer
(`tarball.LayerFromOpener` over a `bytes.Reader`) is pure here. -/
def addNewLayerFromFiles (image : Image) (files : List (String × FSNode)) :
    Except String Image :=
  match createTarFile files with
  | Except.error e => Except.error ("creating tar archive: " ++ e)
  | Except.ok bb =>
    let l : Layer := { entries := bb }
    match mutateAppendLayers image l with
    | Except.error e => Except.error ("appending Layer: " ++ e)
    | Except.ok image2 => Except.ok image2

/-- `buildNewImage` (src/main.go lines 72-84): apply the config
overrides, then add the new layer; each stage failure is wrapped with
its stage name ("applying config" / "adding layer"). -/
def buildNewImage (files : List (String × FSNode)) (env : List String)
    (cmd : String) (now : Nat) (baseImage : Image) : Except String Image :=
  match applyConfig baseImage env cmd now with
  | Except.error e => Except.error ("applying config: " ++ e)
  | Except.ok image =>
    match addNewLayerFromFiles image files with
    | Except.error e => Except.error ("adding layer: " ++ e)
    | Except.ok image2 => Except.ok image2

/-- A sample base image used by the concrete witnesses: one base layer,
a nonempty base environment and command. -/
def sampleBase : Image :=
  { configFile := Except.ok
      { Architecture := "amd64"
        Created := 5
        Config := { Env := ["A=1"], Cmd := ["/bin/sh"], WorkingDir := "/w" }
        DiffIDs := [[TarEntry.mk "base" EType.reg [0]]] }
    layers := [{ entries := [TarEntry.mk "base" EType.reg [0]] }] }

/-- A base image whose config cannot be retrieved. -/
def brokenBase : Image :=
  { configFile := Except.error "MANIFEST_UNKNOWN", layers := [] }

theorem applyConfig_ok {base : Image} {cf0 : ConfigFile}
    (h : base.configFile = Except.ok cf0) (env : List String) (cmd : String)
    (now : Nat) :
    applyConfig base env cmd now =
      Except.ok
        { configFile := Except.ok
            { Architecture := cf0.Architecture
              Created := now
              Config := { Env := env, Cmd := [cmd], WorkingDir := cf0.Config.WorkingDir }
              DiffIDs := cf0.DiffIDs }
          layers := base.layers } := by
  simp [applyConfig, mutateConfig, mutateCreatedAt, h]

theorem buildNewImage_ok {base : Image} {cf0 : ConfigFile}
    {files : List (String × FSNode)} {bb : List TarEntry}
    (h : base.configFile = Except.ok cf0)
    (ht : createTarFile files = Except.ok bb)
    (env : List String) (cmd : String) (now : Nat) :
    buildNewImage files env cmd now base =
      Except.ok
        { configFile := Except.ok
            { Architecture := cf0.Architecture
              Created := now
              Config := { Env := env, Cmd := [cmd], WorkingDir := cf0.Config.WorkingDir }
              DiffIDs := cf0.DiffIDs ++ [bb] }
          layers := base.layers ++ [{ entries := bb }] } := by
  simp [buildNewImage, applyConfig_ok h, addNewLayerFromFiles, ht, mutateAppendLayers]

/-- C3: the environment of the image returned by `applyConfig` is exactly
the override list; no entries of the base image's environment are merged
in. -/
theorem claim_C3 (base : Image) (cf0 : ConfigFile)
    (h : base.configFile = Except.ok cf0)
    (env : List String) (cmd : String) (now : Nat) :
    ∃ img cf, applyConfig base env cmd now = Except.ok img ∧
      img.configFile = Except.ok cf ∧ cf.Config.Env = env :=
  ⟨_, _, applyConfig_ok h env cmd now, rfl, rfl⟩

theorem claim_C3_witness :
    ∃ img cf, applyConfig sampleBase ["B=2"] "/app" 9 = Except.ok img ∧
      img.configFile = Except.ok cf ∧ cf.Config.Env = ["B=2"] :=
  claim_C3 sampleBase _ rfl ["B=2"] "/app" 9

/-- C4: `applyConfig` sets the command to the one-element array holding
the entire untokenized command string, and stamps the creation timestamp
taken at build invocation (`time.Now()` is the `now` argument). -/
theorem claim_C4 (base : Image) (cf0 : ConfigFile)
    (h : base.configFile = Except.ok cf0)
    (env : List String) (cmd : String) (now : Nat) :
    ∃ img cf, applyConfig base env cmd now = Except.ok img ∧
      img.configFile = Except.ok cf ∧ cf.Config.Cmd = [cmd] ∧ cf.Created = now :=
  ⟨_, _, applyConfig_ok h env cmd now, rfl, rfl, rfl⟩

theorem claim_C4_witness :
    ∃ img cf, applyConfig sampleBase ["B=2"] "/app --serve" 9 = Except.ok img ∧
      img.configFile = Except.ok cf ∧ cf.Config.Cmd = ["/app --serve"] ∧
      cf.Created = 9 :=
  claim_C4 sampleBase _ rfl ["B=2"] "/app --serve" 9

/-- C10: the overrides are applied unconditionally: with no `-e` flags
(`Env` is the nil slice) the resulting environment is empty, and with no
`-c` flag (`Cmd` is the zero-value string) the resulting command is the
one-element array containing the empty string; the base image's original
environment and CMD are never preserved. -/
theorem claim_C10 (base : Image) (cf0 : ConfigFile)
    (h : base.configFile = Except.ok cf0) (now : Nat) :
    ∃ img cf, applyConfig base [] "" now = Except.ok img ∧
      img.configFile = Except.ok cf ∧ cf.Config.Env = [] ∧
      cf.Config.Cmd = [""] :=
  ⟨_, _, applyConfig_ok h [] "" now, rfl, rfl, rfl⟩

theorem claim_C10_witness :
    ∃ img cf, applyConfig sampleBase [] "" 9 = Except.ok img ∧
      img.configFile = Except.ok cf ∧ cf.Config.Env = [] ∧
      cf.Config.Cmd = [""] :=
  claim_C10 sampleBase _ rfl 9

/-- C5: the built image's layers are the base layers in their original
order followed by exactly one new layer, whose diff-id is last in the
config's diff-id history; the config overrides are applied in the same
build. -/
theorem claim_C5 (base : Image) (cf0 : ConfigFile)
    (files : List (String × FSNode)) (bb : List TarEntry)
    (env : List String) (cmd : String) (now : Nat)
    (h : base.configFile = Except.ok cf0)
    (ht : createTarFile files = Except.ok bb) :
    ∃ res cf, buildNewImage files env cmd now base = Except.ok res ∧
      res.layers = base.layers ++ [{ entries := bb }] ∧
      res.configFile = Except.ok cf ∧
      cf.DiffIDs = cf0.DiffIDs ++ [bb] ∧
      cf.Config.Env = env ∧ cf.Config.Cmd = [cmd] :=
  ⟨_, _, buildNewImage_ok h ht env cmd now, rfl, rfl, rfl, rfl, rfl⟩

theorem claim_C5_witness :
    ∃ res cf,
      buildNewImage [("app", FSNode.file [10])] ["PORT=8080"] "/app --serve" 9
        sampleBase = Except.ok res ∧
      res.layers = sampleBase.layers ++
        [{ entries := [TarEntry.mk "app" EType.reg [10]] }] ∧
      res.configFile = Except.ok cf ∧
      cf.DiffIDs = [[TarEntry.mk "base" EType.reg [0]]] ++
        [[TarEntry.mk "app" EType.reg [10]]] ∧
      cf.Config.Env = ["PORT=8080"] ∧ cf.Config.Cmd = ["/app --serve"] :=
  claim_C5 sampleBase _ [("app", FSNode.file [10])] _ ["PORT=8080"] "/app --serve" 9
    rfl
    (by simp [createTarFile, tarwalk, statNode, walkNode, entryName, baseName,
      dropTrailingSlashes, lastComp, FSNode.isDir])

/-- C7: the build never mutates the base image value: the result is a
new image value (distinct from the base), the base's layer list appears
unchanged as a prefix of the result, fields the pipeline does not
override are carried over unchanged, and rebuilding from the same base
value with different overrides still sees the base's original data. -/
theorem claim_C7 (base : Image) (cf0 : ConfigFile)
    (files : List (String × FSNode)) (bb : List TarEntry)
    (env : List String) (cmd : String) (now : Nat)
    (h : base.configFile = Except.ok cf0)
    (ht : createTarFile files = Except.ok bb) :
    ∃ res cf, buildNewImage files env cmd now base = Except.ok res ∧
      res ≠ base ∧
      res.layers.take base.layers.length = base.layers ∧
      res.configFile = Except.ok cf ∧
      cf.Architecture = cf0.Architecture ∧
      cf.Config.WorkingDir = cf0.Config.WorkingDir ∧
      (∀ env2 cmd2 now2, ∃ res2 cf2,
        buildNewImage files env2 cmd2 now2 base = Except.ok res2 ∧
        res2.configFile = Except.ok cf2 ∧ cf2.Config.Env = env2 ∧
        cf2.DiffIDs = cf0.DiffIDs ++ [bb]) := by
  refine ⟨_, _, buildNewImage_ok h ht env cmd now, ?_, ?_, rfl, rfl, rfl, ?_⟩
  · intro heq
    have hl := congrArg (fun i => i.layers.length) heq
    simp at hl
  · exact List.take_left base.layers [{ entries := bb }]
  · intro env2 cmd2 now2
    exact ⟨_, _, buildNewImage_ok h ht env2 cmd2 now2, rfl, rfl, rfl⟩

theorem claim_C7_witness :
    ∃ res cf,
      buildNewImage [("app", FSNode.file [10])] ["B=2"] "/app" 9 sampleBase =
        Except.ok res ∧
      res ≠ sampleBase ∧
      res.layers.take sampleBase.layers.length = sampleBase.layers ∧
      res.configFile = Except.ok cf ∧
      cf.Architecture = "amd64" ∧
      cf.Config.WorkingDir = "/w" ∧
      (∀ env2 cmd2 now2, ∃ res2 cf2,
        buildNewImage [("app", FSNode.file [10])] env2 cmd2 now2 sampleBase =
          Except.ok res2 ∧
        res2.configFile = Except.ok cf2 ∧ cf2.Config.Env = env2 ∧
        cf2.DiffIDs = [[TarEntry.mk "base" EType.reg [0]]] ++
          [[TarEntry.mk "app" EType.reg [10]]]) :=
  claim_C7 sampleBase _ [("app", FSNode.file [10])] _ ["B=2"] "/app" 9 rfl
    (by simp [createTarFile, tarwalk, statNode, walkNode, entryName, baseName,
      dropTrailingSlashes, lastComp, FSNode.isDir])

/-- C8: a config-stage failure makes the whole build fail with the
error wrapped as "applying config", and a layer-stage failure makes it
fail with the error wrapped as "adding layer"; no image is returned in
either case. -/
theorem claim_C8 (base : Image) (files : List (String × FSNode))
    (env : List String) (cmd : String) (now : Nat) (e1 e2 : String)
    (cf0 : ConfigFile) :
    (base.configFile = Except.error e1 →
      buildNewImage files env cmd now base =
        Except.error ("applying config: " ++ ("creating config file: " ++ e1))) ∧
    (base.configFile = Except.ok cf0 → createTarFile files = Except.error e2 →
      buildNewImage files env cmd now base =
        Except.error ("adding layer: " ++ ("creating tar archive: " ++ e2))) := by
  constructor
  · intro h
    simp [buildNewImage, applyConfig, h]
  · intro h ht
    simp [buildNewImage, applyConfig_ok h, addNewLayerFromFiles, ht]

theorem claim_C8_witness :
    (buildNewImage [] [] "" 0 brokenBase =
      Except.error ("applying config: " ++
        ("creating config file: " ++ "MANIFEST_UNKNOWN"))) ∧
    (buildNewImage [("sock", FSNode.socket)] [] "" 0 sampleBase =
      Except.error ("adding layer: " ++
        ("creating tar archive: " ++ "archive/tar: sockets not supported"))) :=
  ⟨(claim_C8 brokenBase [] [] "" 0 "MANIFEST_UNKNOWN" ""
      { Architecture := "", Created := 0,
        Config := { Env := [], Cmd := [], WorkingDir := "" }, DiffIDs := [] }).1 rfl,
   (claim_C8 sampleBase [("sock", FSNode.socket)] [] "" 0 ""
      "archive/tar: sockets not supported" _).2 rfl
     (by simp [createTarFile, tarwalk, statNode, walkNode])⟩

theorem isPrefixOf_self_eq (l : List Char) : l.isPrefixOf l = true := by
  induction l with
  | nil => rfl
  | cons a as ih => simp [List.isPrefixOf, ih]

theorem trimPrefixStr_self (p : String) : trimPrefixStr p p = "" := by
  simp only [trimPrefixStr, isPrefixOf_self_eq, if_true]
  apply String.ext
  exact List.drop_length p.data

/-- C1 is false on the code at a concrete input: a symlink source *does*
produce an archive entry (its metadata header, with no content), and a
socket source *does* make the archive operation fail (`tar.FileInfoHeader`
rejects sockets before the regular-file check is reached). -/
theorem claim_C1_counterexample :
    createTarFile [("ln", FSNode.symlink (some (FSNode.file [7])))] =
      Except.ok [TarEntry.mk "ln" EType.symlink []] ∧
    createTarFile [("sock", FSNode.socket)] =
      Except.error "archive/tar: sockets not supported" := by
  constructor
  · simp [createTarFile, tarwalk, statNode, walkNode, entryName, baseName,
      dropTrailingSlashes, lastComp, FSNode.isDir]
  · simp [createTarFile, tarwalk, statNode, walkNode]

theorem isPrefixOf_append_self (l m : List Char) : l.isPrefixOf (l ++ m) = true := by
  induction l with
  | nil => simp [List.isPrefixOf]
  | cons a as ih => simp [List.isPrefixOf, ih]

theorem drop_length_append (l m : List Char) : (l ++ m).drop l.length = m := by
  induction l with
  | nil => rfl
  | cons a as ih =>
    simp only [List.cons_append, List.length_cons, List.drop_succ_cons]
    exact ih

theorem trimPrefixStr_append (p q : String) : trimPrefixStr (p ++ q) p = q := by
  simp only [trimPrefixStr, String.data_append, isPrefixOf_append_self, if_true]
  apply String.ext
  exact drop_length_append p.data q.data

theorem dropWhileSlash_eq_self {l : List Char} (h : l.head? ≠ some '/') :
    l.dropWhile (fun c => c = '/') = l := by
  cases l with
  | nil => rfl
  | cons a as =>
    have ha : ¬(a = '/') := by simpa using h
    simp [List.dropWhile_cons, ha]

theorem dropWhileSlash_head (l : List Char) :
    (l.dropWhile fun c => c = '/').head? ≠ some '/' := by
  induction l with
  | nil => simp
  | cons x xs ih =>
    rw [List.dropWhile_cons]
    by_cases hx : x = '/'
    · simpa [hx] using ih
    · simp [hx]

theorem takeWhileNotSlash_eq_self {l : List Char} (h : '/' ∉ l) :
    (l.takeWhile fun c => c ≠ '/') = l := by
  induction l with
  | nil => rfl
  | cons a as ih =>
    have ha : a ≠ '/' := fun hc => h (hc ▸ List.mem_cons_self a as)
    rw [List.takeWhile_cons, if_pos (by simp [ha])]
    rw [ih (fun hc => h (List.mem_cons_of_mem a hc))]

theorem takeWhile_append_stop {l m : List Char} (hl : '/' ∉ l)
    (hm : m.head? = some '/') : ((l ++ m).takeWhile fun c => c ≠ '/') = l := by
  induction l with
  | nil =>
    cases m with
    | nil => simp at hm
    | cons x xs =>
      have hx : x = '/' := by simpa using hm
      simp [List.takeWhile_cons, hx]
  | cons a as ih =>
    have ha : a ≠ '/' := fun hc => hl (hc ▸ List.mem_cons_self a as)
    rw [List.cons_append, List.takeWhile_cons, if_pos (by simp [ha])]
    rw [ih (fun hc => hl (List.mem_cons_of_mem a hc))]

theorem rootName_self {b : String} (hbs : '/' ∉ b.data) : rootName b = b := by
  apply String.ext
  exact takeWhileNotSlash_eq_self hbs

theorem rootName_append {b r : String} (hbs : '/' ∉ b.data) :
    rootName (b ++ "/" ++ r) = b := by
  apply String.ext
  show ((b ++ "/" ++ r).data.takeWhile fun c => c ≠ '/') = b.data
  rw [String.data_append, String.data_append, List.append_assoc]
  exact takeWhile_append_stop hbs rfl

theorem lastComp_ne_nil {l : List Char} (h1 : l ≠ []) (h2 : l.getLast? ≠ some '/') :
    lastComp l ≠ [] := by
  unfold lastComp
  intro hc
  rw [List.reverse_eq_nil_iff] at hc
  cases hr : l.reverse with
  | nil => exact h1 (List.reverse_eq_nil_iff.mp hr)
  | cons a as =>
    have ha : a ≠ '/' := by
      have hh : l.reverse.head? = some a := by rw [hr]; rfl
      rw [List.head?_reverse] at hh
      intro heq
      rw [heq] at hh
      exact h2 hh
    rw [hr, List.takeWhile_cons] at hc
    simp [ha] at hc

theorem dropTrailingSlashes_eq_self {l : List Char} (h : l.getLast? ≠ some '/') :
    dropTrailingSlashes l = l := by
  unfold dropTrailingSlashes
  rw [dropWhileSlash_eq_self (by rw [List.head?_reverse]; exact h)]
  exact List.reverse_reverse l

theorem getLast_reverse {α} (l : List α) : l.reverse.getLast? = l.head? := by
  have h := List.head?_reverse l.reverse
  rw [List.reverse_reverse] at h
  exact h.symm

theorem mem_of_getLastEq {α} : ∀ {l : List α} {a : α}, l.getLast? = some a → a ∈ l := by
  intro l
  induction l with
  | nil => intro a h; cases h
  | cons b t ih =>
    intro a h
    cases t with
    | nil =>
      rw [List.getLast?_singleton] at h
      injection h with h2
      subst h2
      exact List.mem_singleton_self _
    | cons c u =>
      rw [List.getLast?_cons_cons] at h
      exact List.mem_cons_of_mem b (ih h)

theorem getLastSome {α} (b : α) : ∀ (L : List α), ∃ x, (b :: L).getLast? = some x := by
  intro L
  induction L generalizing b with
  | nil => exact ⟨b, List.getLast?_singleton b⟩
  | cons c u ih =>
    obtain ⟨x, hx⟩ := ih c
    exact ⟨x, by rw [List.getLast?_cons_cons]; exact hx⟩

theorem getLast_append_right {α} (l : List α) {m : List α} (hm : m ≠ []) :
    (l ++ m).getLast? = m.getLast? := by
  obtain ⟨b, L, hbl⟩ := List.exists_cons_of_ne_nil hm
  subst hbl
  rw [List.getLast?_append]
  obtain ⟨x, hx⟩ := getLastSome b L
  rw [hx]
  rfl

theorem splitSlash_ne_nil (l : List Char) : ∃ c cs, splitSlash l = c :: cs := by
  induction l with
  | nil => exact ⟨[], [], rfl⟩
  | cons a rest ih =>
    by_cases ha : a = '/'
    · exact ⟨[], splitSlash rest, by simp [splitSlash, ha]⟩
    · obtain ⟨c, cs, hc⟩ := ih
      exact ⟨a :: c, cs, by simp [splitSlash, ha, hc]⟩

theorem joinComps_cons (c : List Char) (xs : List (List Char)) (h : xs ≠ []) :
    joinComps (c :: xs) = c ++ '/' :: joinComps xs := by
  cases xs with
  | nil => exact absurd rfl h
  | cons d ds => rfl

theorem joinComps_append_single :
    ∀ (xs : List (List Char)) (c : List Char), xs ≠ [] →
      joinComps (xs ++ [c]) = joinComps xs ++ '/' :: c := by
  intro xs
  induction xs with
  | nil => intro c h; exact absurd rfl h
  | cons x xs2 ih =>
    intro c _
    cases hxs : xs2 with
    | nil => subst hxs; rfl
    | cons y ys =>
      subst hxs
      rw [show (x :: y :: ys) ++ [c] = x :: ((y :: ys) ++ [c]) from rfl]
      rw [joinComps_cons x ((y :: ys) ++ [c]) (by simp)]
      rw [ih c (by simp)]
      rw [joinComps_cons x (y :: ys) (by simp)]
      simp

theorem joinComps_splitSlash : ∀ l : List Char, joinComps (splitSlash l) = l := by
  intro l
  induction l with
  | nil => rfl
  | cons a rest ih =>
    by_cases ha : a = '/'
    · subst ha
      obtain ⟨c, cs, hc⟩ := splitSlash_ne_nil rest
      rw [show splitSlash ('/' :: rest) = [] :: splitSlash rest by simp [splitSlash]]
      rw [joinComps_cons [] (splitSlash rest) (by rw [hc]; simp)]
      rw [ih]
      rfl
    · obtain ⟨c, cs, hc⟩ := splitSlash_ne_nil rest
      rw [show splitSlash (a :: rest) = (a :: c) :: cs by simp [splitSlash, ha, hc]]
      cases cs with
      | nil =>
        have h2 : c = rest := by
          rw [hc] at ih
          simpa [joinComps] using ih
        rw [show joinComps [a :: c] = a :: c from rfl, h2]
      | cons e es =>
        rw [joinComps_cons (a :: c) (e :: es) (by simp)]
        have h2 : c ++ '/' :: joinComps (e :: es) = rest := by
          rw [hc] at ih
          rw [joinComps_cons c (e :: es) (by simp)] at ih
          exact ih
        simp [← h2]

theorem splitSlash_no_slash : ∀ {l : List Char}, '/' ∉ l → splitSlash l = [l] := by
  intro l
  induction l with
  | nil => intro _; rfl
  | cons a rest ih =>
    intro h
    have ha : a ≠ '/' := fun hc => h (hc ▸ List.mem_cons_self a rest)
    have hrest : '/' ∉ rest := fun hc => h (List.mem_cons_of_mem a hc)
    simp [splitSlash, ha, ih hrest]

theorem splitSlash_append :
    ∀ (l m : List Char), splitSlash (l ++ '/' :: m) = splitSlash l ++ splitSlash m := by
  intro l m
  induction l with
  | nil => simp [splitSlash]
  | cons a rest ih =>
    by_cases ha : a = '/'
    · subst ha
      rw [show ('/' :: rest) ++ '/' :: m = '/' :: (rest ++ '/' :: m) from rfl]
      rw [show splitSlash ('/' :: (rest ++ '/' :: m)) =
          [] :: splitSlash (rest ++ '/' :: m) by simp [splitSlash]]
      rw [ih]
      rw [show splitSlash ('/' :: rest) = [] :: splitSlash rest by simp [splitSlash]]
      simp
    · obtain ⟨c, cs, hc⟩ := splitSlash_ne_nil rest
      have h1 : splitSlash (rest ++ '/' :: m) = c :: (cs ++ splitSlash m) := by
        rw [ih, hc]
        simp
      rw [show (a :: rest) ++ '/' :: m = a :: (rest ++ '/' :: m) from rfl]
      rw [show splitSlash (a :: (rest ++ '/' :: m)) =
          (a :: c) :: (cs ++ splitSlash m) by simp [splitSlash, ha, h1]]
      rw [show splitSlash (a :: rest) = (a :: c) :: cs by simp [splitSlash, ha, hc]]
      simp

theorem simplePath_ne_empty {p : String} (hp : simplePath p) : p ≠ "" := by
  intro hc
  subst hc
  exact (hp [] (List.mem_singleton_self [])).1 rfl

theorem simplePath_head {p : String} (hp : simplePath p) :
    p.data.head? ≠ some '/' := by
  intro hc
  cases hd : p.data with
  | nil => rw [hd] at hc; simp at hc
  | cons a rest =>
    rw [hd] at hc
    simp at hc
    subst hc
    have hmem : ([] : List Char) ∈ splitSlash p.data := by
      rw [hd]
      simp [splitSlash]
    exact (hp [] hmem).1 rfl

theorem validName_data {n : String} (hn : validName n) : simpleComp n.data := by
  refine ⟨?_, ?_, ?_, hn.2.2.2⟩
  · intro hc; exact hn.1 (String.ext hc)
  · intro hc; exact hn.2.1 (String.ext hc)
  · intro hc; exact hn.2.2.1 (String.ext hc)

theorem validName_mk {c : List Char} (hc : simpleComp c) : validName (String.mk c) := by
  refine ⟨?_, ?_, ?_, hc.2.2.2⟩
  · intro h; exact hc.1 (congrArg String.data h)
  · intro h; exact hc.2.1 (congrArg String.data h)
  · intro h; exact hc.2.2.1 (congrArg String.data h)

theorem validName_simplePath {n : String} (hn : validName n) : simplePath n := by
  intro c hc
  rw [splitSlash_no_slash hn.2.2.2] at hc
  simp at hc
  subst hc
  exact validName_data hn

theorem simplePath_append {x y : String} (hx : simplePath x) (hy : simplePath y) :
    simplePath (x ++ "/" ++ y) := by
  intro c hc
  have hd : (x ++ "/" ++ y).data = x.data ++ '/' :: y.data := by
    simp [String.data_append]
  rw [hd, splitSlash_append] at hc
  rcases List.mem_append.mp hc with h | h
  · exact hx c h
  · exact hy c h

theorem slashAppend_ne_empty (n : String) : "/" ++ n ≠ "" := by
  intro hc
  have h := congrArg String.data hc
  simp [String.data_append] at h

theorem cleanStack_simple :
    ∀ (cs : List (List Char)) (out : List (List Char)),
      (∀ c ∈ cs, simpleComp c) → cleanStack false out cs = out.reverse ++ cs := by
  intro cs
  induction cs with
  | nil => intro out _; simp [cleanStack]
  | cons c cs2 ih =>
    intro out h
    have hc := h c (List.mem_cons_self c cs2)
    have h1 : ¬(c = [] ∨ c = ['.']) := by
      intro hor
      cases hor with
      | inl hh => exact hc.1 hh
      | inr hh => exact hc.2.1 hh
    have h2 : ¬c = ['.', '.'] := hc.2.2.1
    rw [show cleanStack false out (c :: cs2) = cleanStack false (c :: out) cs2 by
      simp [cleanStack, h1, h2]]
    rw [ih (c :: out) (fun x hx => h x (List.mem_cons_of_mem c hx))]
    simp

theorem goClean_simple {p : String} (hp : simplePath p) : goClean p = p := by
  have hne : p ≠ "" := simplePath_ne_empty hp
  have hd : p.data ≠ [] := fun hc => hne (String.ext hc)
  have hhd : ¬p.data.head? = some '/' := simplePath_head hp
  have hcs : cleanStack false [] (splitSlash p.data) = splitSlash p.data := by
    have h := cleanStack_simple (splitSlash p.data) [] hp
    simpa using h
  unfold goClean
  rw [if_neg hne, if_neg hhd, hcs, joinComps_splitSlash, if_neg hd]

theorem goClean_single {c : String} (hne : c ≠ "") (hns : '/' ∉ c.data) :
    goClean c = c := by
  by_cases h1 : c = "."
  · subst h1; rfl
  by_cases h2 : c = ".."
  · subst h2; rfl
  exact goClean_simple (validName_simplePath ⟨hne, h1, h2, hns⟩)

theorem goJoin_simple {p n : String} (hp : simplePath p) (hn : validName n) :
    goJoin p n = p ++ "/" ++ n := by
  unfold goJoin
  rw [if_neg (simplePath_ne_empty hp), if_neg hn.1]
  exact goClean_simple (simplePath_append hp (validName_simplePath hn))

theorem goClean_comp_slash {b r : String} (hb : validName b) (hr : simplePath r) :
    goClean (b ++ "/" ++ ("/" ++ r)) = b ++ "/" ++ r := by
  have hbd := validName_data hb
  have hne : b ++ "/" ++ ("/" ++ r) ≠ "" := by
    intro hc
    have h := congrArg String.data hc
    simp [String.data_append] at h
  have hdata : (b ++ "/" ++ ("/" ++ r)).data = b.data ++ '/' :: ('/' :: r.data) := by
    simp [String.data_append]
  have hhd : ¬(b ++ "/" ++ ("/" ++ r)).data.head? = some '/' := by
    rw [hdata]
    cases hbd2 : b.data with
    | nil => exact absurd hbd2 hbd.1
    | cons a rest =>
      have ha : a ≠ '/' := by
        intro hc
        exact hbd.2.2.2 (by rw [hbd2]; exact hc ▸ List.mem_cons_self a rest)
      simp [ha]
  obtain ⟨c0, cs0, hc0⟩ := splitSlash_ne_nil r.data
  have hsplit : splitSlash (b ++ "/" ++ ("/" ++ r)).data =
      b.data :: [] :: splitSlash r.data := by
    rw [hdata, splitSlash_append, splitSlash_no_slash hbd.2.2.2]
    simp [splitSlash]
  have h1 : ¬(b.data = [] ∨ b.data = ['.']) := by
    intro hor
    cases hor with
    | inl hh => exact hbd.1 hh
    | inr hh => exact hbd.2.1 hh
  have hstack : cleanStack false [] (b.data :: [] :: splitSlash r.data) =
      b.data :: splitSlash r.data := by
    rw [show cleanStack false [] (b.data :: [] :: splitSlash r.data) =
        cleanStack false [b.data] ([] :: splitSlash r.data) by
      simp [cleanStack, h1, hbd.2.2.1]]
    rw [show cleanStack false [b.data] ([] :: splitSlash r.data) =
        cleanStack false [b.data] (splitSlash r.data) by simp [cleanStack]]
    have h := cleanStack_simple (splitSlash r.data) [b.data] hr
    simpa using h
  have hjoin : joinComps (b.data :: splitSlash r.data) = (b ++ "/" ++ r).data := by
    rw [joinComps_cons b.data (splitSlash r.data) (by rw [hc0]; simp)]
    rw [joinComps_splitSlash]
    simp [String.data_append]
  unfold goClean
  rw [if_neg hne, if_neg hhd, hsplit, hstack, hjoin]
  rw [if_neg (by
    intro hc
    simp [String.data_append] at hc)]

theorem baseName_cases (p : String) :
    baseName p = "/" ∨ ('/' ∉ (baseName p).data ∧ baseName p ≠ "") := by
  by_cases hp0 : p = ""
  · subst hp0
    right
    exact ⟨by decide, by decide⟩
  · by_cases hs : dropTrailingSlashes p.data = []
    · left
      simp [baseName, hp0, hs]
    · right
      have hbn : baseName p = String.mk (lastComp (dropTrailingSlashes p.data)) := by
        simp [baseName, hp0, hs]
      rw [hbn]
      constructor
      · intro hc
        unfold lastComp at hc
        rw [show (String.mk ((dropTrailingSlashes p.data).reverse.takeWhile
            fun c => c ≠ '/').reverse).data =
            ((dropTrailingSlashes p.data).reverse.takeWhile fun c => c ≠ '/').reverse
            from rfl] at hc
        rw [List.mem_reverse] at hc
        have h := List.mem_takeWhile_imp hc
        simp at h
      · intro hc
        have hd2 := congrArg String.data hc
        have hlast : (dropTrailingSlashes p.data).getLast? ≠ some '/' := by
          unfold dropTrailingSlashes
          rw [getLast_reverse]
          exact dropWhileSlash_head p.data.reverse
        exact lastComp_ne_nil hs hlast hd2

theorem goJoin_base_empty (p : String) : goJoin (baseName p) "" = baseName p := by
  rcases baseName_cases p with h | ⟨hns, hne⟩
  · rw [h]; decide
  · unfold goJoin
    rw [if_neg hne, if_pos rfl]
    exact goClean_single hne hns

theorem baseName_simple {p : String} (hp : simplePath p) : validName (baseName p) := by
  have hne : p ≠ "" := simplePath_ne_empty hp
  have hd : p.data ≠ [] := fun hc => hne (String.ext hc)
  have hJ := joinComps_splitSlash p.data
  rcases List.eq_nil_or_concat (splitSlash p.data) with hnil | ⟨cs0, clast, hcs⟩
  · obtain ⟨c, cs, hc⟩ := splitSlash_ne_nil p.data
    rw [hc] at hnil
    cases hnil
  · rw [List.concat_eq_append] at hcs
    have hlast : simpleComp clast := hp clast (by
      rw [hcs]
      exact List.mem_append_right _ (List.mem_singleton_self _))
    rw [hcs] at hJ
    by_cases h0 : cs0 = []
    · subst h0
      simp only [List.nil_append] at hJ
      have hpd : p.data = clast := by rw [← hJ]; rfl
      have hgl : p.data.getLast? ≠ some '/' := by
        rw [hpd]
        intro hc
        exact hlast.2.2.2 (mem_of_getLastEq hc)
      have hlastq : dropTrailingSlashes p.data = p.data :=
        dropTrailingSlashes_eq_self hgl
      have hlc : lastComp p.data = clast := by
        rw [hpd]
        unfold lastComp
        have h1 : '/' ∉ clast.reverse := by
          rw [List.mem_reverse]
          exact hlast.2.2.2
        rw [takeWhileNotSlash_eq_self h1, List.reverse_reverse]
      have hsne : dropTrailingSlashes p.data ≠ [] := by rw [hlastq]; exact hd
      have hbn : baseName p = String.mk clast := by
        simp [baseName, hne, hlastq, hd, hlc]
      rw [hbn]
      exact validName_mk hlast
    · rw [joinComps_append_single cs0 clast h0] at hJ
      have hgl : p.data.getLast? ≠ some '/' := by
        rw [← hJ]
        rw [getLast_append_right (joinComps cs0) (by simp)]
        rw [show ('/' :: clast) = ['/'] ++ clast from rfl]
        rw [getLast_append_right ['/'] hlast.1]
        intro hc
        exact hlast.2.2.2 (mem_of_getLastEq hc)
      have hlastq : dropTrailingSlashes p.data = p.data :=
        dropTrailingSlashes_eq_self hgl
      have hlc : lastComp p.data = clast := by
        rw [← hJ]
        unfold lastComp
        rw [show (joinComps cs0 ++ '/' :: clast).reverse =
            clast.reverse ++ '/' :: (joinComps cs0).reverse by
          rw [List.reverse_append]
          simp]
        rw [@takeWhile_append_stop clast.reverse ('/' :: (joinComps cs0).reverse)
          (by rw [List.mem_reverse]; exact hlast.2.2.2) rfl]
        exact List.reverse_reverse clast
      have hsne : dropTrailingSlashes p.data ≠ [] := by rw [hlastq]; exact hd
      have hbn : baseName p = String.mk clast := by
        simp [baseName, hne, hlastq, hd, hlc]
      rw [hbn]
      exact validName_mk hlast

/-- C1 (amended): a symlink input path whose target resolves produces
exactly one archive entry — its metadata header, with no content bytes —
and does not cause failure; a socket input path causes the whole archive
operation to fail with the `archive/tar` error. -/
theorem claim_C1 (p : String) (t i : FSNode) (h : statNode t = some i) :
    tarwalk p (FSNode.symlink (some t)) =
      Except.ok [TarEntry.mk (baseName p) EType.symlink []] ∧
    tarwalk p FSNode.socket =
      Except.error "archive/tar: sockets not supported" := by
  constructor
  · unfold tarwalk
    have hs : statNode (FSNode.symlink (some t)) = some i := by
      simpa [statNode] using h
    rw [hs]
    by_cases hd : i.isDir
    · simp only [hd, if_true]
      simp only [walkNode]
      have he : entryName p (baseName p) p (baseName p) = baseName p := by
        unfold entryName
        by_cases hb0 : baseName p = ""
        · rw [if_pos hb0]
        · rw [if_neg hb0, trimPrefixStr_self]
          exact goJoin_base_empty p
      rw [he]
    · simp [hd, walkNode, entryName]
  · simp [tarwalk, statNode, walkNode]

theorem claim_C1_witness :
    tarwalk "ln" (FSNode.symlink (some (FSNode.file [7]))) =
      Except.ok [TarEntry.mk (baseName "ln") EType.symlink []] ∧
    tarwalk "ln" FSNode.socket =
      Except.error "archive/tar: sockets not supported" :=
  claim_C1 "ln" (FSNode.file [7]) (FSNode.file [7]) rfl

theorem entryName_child {p b n : String} (hbv : validName b) (hp : simplePath p)
    (hn : validName n) : entryName p b (goJoin p n) n = b ++ "/" ++ n := by
  rw [goJoin_simple hp hn]
  unfold entryName
  rw [if_neg hbv.1]
  have h2 : trimPrefixStr (p ++ "/" ++ n) p = "/" ++ n := by
    rw [String.append_assoc]
    exact trimPrefixStr_append p ("/" ++ n)
  rw [h2]
  unfold goJoin
  rw [if_neg hbv.1, if_neg (slashAppend_ne_empty n)]
  exact goClean_comp_slash hbv (validName_simplePath hn)

theorem walkChildren_mem {source b path : String} {l : List (String × FSNode)}
    {es : List TarEntry} {n : String} {c : FSNode}
    (h : walkChildren source b path l = Except.ok es) (hm : (n, c) ∈ l) :
    ∃ es1, walkNode source b (goJoin path n) n c = Except.ok es1 ∧
      ∀ e ∈ es1, e ∈ es := by
  induction l generalizing es with
  | nil => cases hm
  | cons hd tl ih =>
    obtain ⟨n1, c1⟩ := hd
    simp only [walkChildren] at h
    cases hw : walkNode source b (goJoin path n1) n1 c1 with
    | error e =>
      rw [hw] at h
      simp at h
    | ok es1 =>
      cases hrest : walkChildren source b path tl with
      | error e2 =>
        rw [hw, hrest] at h
        simp at h
      | ok es2 =>
        rw [hw, hrest] at h
        simp at h
        rcases List.mem_cons.mp hm with heq | htl
        · injection heq with h1 h2
          subst h1
          subst h2
          refine ⟨es1, hw, fun e he => ?_⟩
          rw [← h]
          exact List.mem_append_left _ he
        · obtain ⟨es1x, hwnx, hsubx⟩ := ih hrest htl
          refine ⟨es1x, hwnx, fun e he => ?_⟩
          rw [← h]
          exact List.mem_append_right _ (hsubx e he)

/-- C2 is false on the code at a concrete input: for the non-clean
source path `./foo` (a directory named `foo` containing `bar.txt`),
`filepath.Walk` hands the walk function the `Clean`ed child path
`foo/bar.txt`, `strings.TrimPrefix` fails to strip the raw source
`./foo` from it, and the emitted entry is named `foo/foo/bar.txt`; no
entry named `foo/bar.txt` exists in the archive. -/
theorem claim_C2_counterexample :
    createTarFile [("./foo", FSNode.dir [("bar.txt", FSNode.file [7])])] =
      Except.ok [TarEntry.mk "foo" EType.dir [],
        TarEntry.mk "foo/foo/bar.txt" EType.reg [7]] ∧
    TarEntry.mk "foo/bar.txt" EType.reg [7] ∉
      [TarEntry.mk "foo" EType.dir [],
        TarEntry.mk "foo/foo/bar.txt" EType.reg [7]] := by
  constructor
  · simp [createTarFile, tarwalk, statNode, walkNode, walkChildren, sortChildren,
      List.insertionSort, entryName, FSNode.isDir,
      (show baseName "./foo" = "foo" by decide),
      (show trimPrefixStr "./foo" "./foo" = "" by decide),
      (show trimPrefixStr "foo/bar.txt" "./foo" = "foo/bar.txt" by decide),
      (show goJoin "./foo" "bar.txt" = "foo/bar.txt" by decide),
      (show goJoin "foo" "" = "foo" by decide),
      (show goJoin "foo" "foo/bar.txt" = "foo/foo/bar.txt" by decide)]
  · decide

/-- C2 (amended): for a source path in `filepath.Clean` form built from
normal components, archiving a directory source yields entries whose
archive path is the directory's base name joined to the contained
file's name with a forward slash; archiving a single regular file (any
source path) yields exactly one entry named by the file's base name,
with no directory prefix. -/
theorem claim_C2 :
    (∀ (p : String) (children : List (String × FSNode)) (n : String)
        (v : List Nat) (es : List TarEntry),
      simplePath p → validName n →
      (n, FSNode.file v) ∈ children →
      tarwalk p (FSNode.dir children) = Except.ok es →
      TarEntry.mk (baseName p ++ "/" ++ n) EType.reg v ∈ es) ∧
    (∀ (p : String) (v : List Nat),
      tarwalk p (FSNode.file v) =
        Except.ok [TarEntry.mk (baseName p) EType.reg v]) := by
  constructor
  · intro p children n v es hp hn hm ht
    have hbv : validName (baseName p) := baseName_simple hp
    simp only [tarwalk, statNode, FSNode.isDir, if_true] at ht
    simp only [walkNode] at ht
    cases hw : walkChildren p (baseName p) p (sortChildren children) with
    | error e =>
      rw [hw] at ht
      simp at ht
    | ok rest =>
      rw [hw] at ht
      simp at ht
      have hm2 : (n, FSNode.file v) ∈ sortChildren children := by
        simpa [sortChildren] using hm
      obtain ⟨es1, hwn, hsub⟩ := walkChildren_mem hw hm2
      simp only [walkNode] at hwn
      rw [entryName_child hbv hp hn] at hwn
      simp at hwn
      have hin : TarEntry.mk (baseName p ++ "/" ++ n) EType.reg v ∈ es1 := by
        rw [← hwn]
        exact List.mem_singleton_self _
      rw [← ht]
      exact List.mem_cons_of_mem _ (hsub _ hin)
  · intro p v
    simp [tarwalk, statNode, FSNode.isDir, walkNode, entryName]

theorem claim_C2_witness :
    simplePath "foo" ∧ validName "bar.txt" ∧
    TarEntry.mk (baseName "foo" ++ "/" ++ "bar.txt") EType.reg [104] ∈
      [TarEntry.mk "foo" EType.dir [], TarEntry.mk "foo/bar.txt" EType.reg [104]] ∧
    tarwalk "baz.txt" (FSNode.file [9]) =
      Except.ok [TarEntry.mk (baseName "baz.txt") EType.reg [9]] :=
  ⟨by decide, by decide,
   claim_C2.1 "foo" [("bar.txt", FSNode.file [104])] "bar.txt" [104] _
     (by decide) (by decide) (List.mem_singleton_self _)
     (by simp [tarwalk, statNode, walkNode, walkChildren, sortChildren,
       List.insertionSort, entryName, FSNode.isDir,
       (show baseName "foo" = "foo" by decide),
       (show trimPrefixStr "foo" "foo" = "" by decide),
       (show trimPrefixStr "foo/bar.txt" "foo" = "/bar.txt" by decide),
       (show goJoin "foo" "bar.txt" = "foo/bar.txt" by decide),
       (show goJoin "foo" "" = "foo" by decide),
       (show goJoin "foo" "/bar.txt" = "foo/bar.txt" by decide)]),
   claim_C2.2 "baz.txt" [9]⟩

/-- Well-formedness of a filesystem tree as the operating system
presents it to the walker: every directory-entry name is a `validName`
(`Readdirnames` never returns an empty name, `.`, `..`, or a name
containing `/`). -/
inductive ValidTree : FSNode → Prop where
  | file (v : List Nat) : ValidTree (FSNode.file v)
  | symlink (t : Option FSNode) : ValidTree (FSNode.symlink t)
  | socket : ValidTree FSNode.socket
  | dir (children : List (String × FSNode))
      (hnames : ∀ q ∈ children, validName q.1)
      (htrees : ∀ q ∈ children, ValidTree q.2) :
      ValidTree (FSNode.dir children)

/-- The shape of every path `filepath.Walk` visits below a simple
source: the source itself, or the source extended by `/` and a simple
relative remainder. -/
def pathExt (source p : String) : Prop :=
  p = source ∨ ∃ r : String, simplePath r ∧ p = source ++ "/" ++ r

theorem pathExt_goJoin {source p : String} (hsp : simplePath source)
    (h : pathExt source p) {n : String} (hn : validName n) :
    pathExt source (goJoin p n) := by
  rcases h with heq | ⟨r, hr, hpe⟩
  · subst heq
    rw [goJoin_simple hsp hn]
    exact Or.inr ⟨n, validName_simplePath hn, rfl⟩
  · have hps : simplePath p := by
      rw [hpe]
      exact simplePath_append hsp hr
    rw [goJoin_simple hps hn]
    refine Or.inr ⟨r ++ "/" ++ n, simplePath_append hr (validName_simplePath hn), ?_⟩
    rw [hpe]
    apply String.ext
    simp [String.data_append, List.append_assoc]

theorem entryName_rootName {source b p : String} (hbv : validName b)
    (hinv : pathExt source p) (nm : String) :
    rootName (entryName source b p nm) = b := by
  unfold entryName
  rw [if_neg hbv.1]
  rcases hinv with heq | ⟨r, hr, hpe⟩
  · rw [heq, trimPrefixStr_self]
    rw [show goJoin b "" = goClean b by
      unfold goJoin
      rw [if_neg hbv.1, if_pos rfl]]
    rw [goClean_single hbv.1 hbv.2.2.2]
    exact rootName_self hbv.2.2.2
  · rw [hpe]
    have h1 : trimPrefixStr (source ++ "/" ++ r) source = "/" ++ r := by
      rw [String.append_assoc]
      exact trimPrefixStr_append source ("/" ++ r)
    rw [h1]
    rw [show goJoin b ("/" ++ r) = goClean (b ++ "/" ++ ("/" ++ r)) by
      unfold goJoin
      rw [if_neg hbv.1, if_neg (slashAppend_ne_empty r)]]
    rw [goClean_comp_slash hbv hr]
    exact rootName_append hbv.2.2.2

theorem fsnode_sizeOf_pos (n : FSNode) : 0 < sizeOf n := by
  cases n <;> simp_arith

theorem list_sizeOf_pos {α} [SizeOf α] (l : List α) : 0 < sizeOf l := by
  cases l <;> simp_arith

theorem walk_rootName_aux (source b : String) (hbv : validName b)
    (hsp : simplePath source) :
    ∀ k : Nat,
      (∀ node : FSNode, sizeOf node ≤ k → ValidTree node →
        ∀ p nm es, pathExt source p →
        walkNode source b p nm node = Except.ok es →
        ∀ e ∈ es, rootName e.name = b) ∧
      (∀ l : List (String × FSNode), sizeOf l ≤ k →
        (∀ q ∈ l, validName q.1 ∧ ValidTree q.2) →
        ∀ p es, pathExt source p →
        walkChildren source b p l = Except.ok es →
        ∀ e ∈ es, rootName e.name = b) := by
  intro k
  induction k with
  | zero =>
    constructor
    · intro node hsz
      exact absurd hsz (by have := fsnode_sizeOf_pos node; omega)
    · intro l hsz
      exact absurd hsz (by have := list_sizeOf_pos l; omega)
  | succ k ih =>
    constructor
    · intro node hsz hvt p nm es hinv hwalk e he
      cases node with
      | socket => simp [walkNode] at hwalk
      | file v =>
        simp only [walkNode] at hwalk
        simp at hwalk
        rw [← hwalk] at he
        simp at he
        rw [he, entryName_rootName hbv hinv]
      | symlink t =>
        simp only [walkNode] at hwalk
        simp at hwalk
        rw [← hwalk] at he
        simp at he
        rw [he, entryName_rootName hbv hinv]
      | dir children =>
        cases hvt with
        | dir _ hchn hcht =>
          simp only [walkNode] at hwalk
          cases hw : walkChildren source b p (sortChildren children) with
          | error e2 =>
            rw [hw] at hwalk
            simp at hwalk
          | ok rest =>
            rw [hw] at hwalk
            simp [hbv.1] at hwalk
            rw [← hwalk] at he
            rcases List.mem_cons.mp he with heq | hmem
            · rw [heq]
              exact entryName_rootName hbv hinv nm
            · have hsz2 : sizeOf (sortChildren children) ≤ k := by
                rw [sizeOf_sortChildren]
                simp only [FSNode.dir.sizeOf_spec] at hsz
                omega
              have hch2 : ∀ q ∈ sortChildren children,
                  validName q.1 ∧ ValidTree q.2 := by
                intro q hq
                have hq2 := (List.mem_insertionSort childLE).mp hq
                exact ⟨hchn q hq2, hcht q hq2⟩
              exact ih.2 (sortChildren children) hsz2 hch2 p rest hinv hw e hmem
    · intro l hsz hl p es hinv hwc e he
      cases l with
      | nil =>
        simp only [walkChildren] at hwc
        simp at hwc
        subst hwc
        cases he
      | cons hd tl =>
        obtain ⟨n1, c1⟩ := hd
        have hq1 := hl (n1, c1) (List.mem_cons_self _ _)
        simp only [walkChildren] at hwc
        cases hw1 : walkNode source b (goJoin p n1) n1 c1 with
        | error e1 =>
          rw [hw1] at hwc
          simp at hwc
        | ok es1 =>
          cases hw2 : walkChildren source b p tl with
          | error e2 =>
            rw [hw1, hw2] at hwc
            simp at hwc
          | ok es2 =>
            rw [hw1, hw2] at hwc
            simp at hwc
            rw [← hwc] at he
            rcases List.mem_append.mp he with h1 | h2
            · have hsz1 : sizeOf c1 ≤ k := by
                simp only [List.cons.sizeOf_spec, Prod.mk.sizeOf_spec] at hsz
                omega
              exact ih.1 c1 hsz1 hq1.2 (goJoin p n1) n1 es1
                (pathExt_goJoin hsp hinv hq1.1) hw1 e h1
            · have hsz2 : sizeOf tl ≤ k := by
                simp only [List.cons.sizeOf_spec, Prod.mk.sizeOf_spec] at hsz
                omega
              exact ih.2 tl hsz2 (fun q hq => hl q (List.mem_cons_of_mem _ hq))
                p es2 hinv hw2 e h2

theorem tarwalk_rootName {p : String} {node : FSNode} {es : List TarEntry}
    (hp : simplePath p) (hvt : ValidTree node)
    (h : tarwalk p node = Except.ok es) :
    ∀ e ∈ es, rootName e.name = baseName p := by
  have hbv : validName (baseName p) := baseName_simple hp
  unfold tarwalk at h
  cases hs : statNode node with
  | none =>
    rw [hs] at h
    simp at h
  | some info =>
    rw [hs] at h
    by_cases hd : info.isDir
    · simp only [hd, if_true] at h
      exact fun e he =>
        (walk_rootName_aux p (baseName p) hbv hp (sizeOf node)).1 node le_rfl hvt
          p (baseName p) es (Or.inl rfl) h e he
    · simp only [hd, if_false] at h
      cases node with
      | socket => simp [walkNode] at h
      | dir children =>
        have hinfo : info = FSNode.dir children := by
          simp [statNode] at hs
          exact hs.symm
        rw [hinfo] at hd
        simp [FSNode.isDir] at hd
      | file v =>
        simp only [walkNode] at h
        simp at h
        rw [← h]
        intro e he
        simp at he
        rw [he]
        simp [entryName]
        exact rootName_self hbv.2.2.2
      | symlink t =>
        simp only [walkNode] at h
        simp at h
        rw [← h]
        intro e he
        simp at he
        rw [he]
        simp [entryName]
        exact rootName_self hbv.2.2.2

/-- C6 is false on the code at a concrete input: two file sources with
the same base name collide at the image root — the archive contains two
entries both named `foo`. -/
theorem claim_C6_counterexample :
    createTarFile [("a/foo", FSNode.file [1]), ("b/foo", FSNode.file [2])] =
      Except.ok [TarEntry.mk "foo" EType.reg [1], TarEntry.mk "foo" EType.reg [2]] ∧
    ¬ List.Pairwise (fun e1 e2 => TarEntry.name e1 ≠ TarEntry.name e2)
        [TarEntry.mk "foo" EType.reg [1], TarEntry.mk "foo" EType.reg [2]] := by
  constructor
  · simp [createTarFile, tarwalk, statNode, walkNode, entryName, baseName,
      dropTrailingSlashes, lastComp, FSNode.isDir]
  · intro hc
    have h := List.rel_of_pairwise_cons hc (List.mem_singleton_self _)
    exact h rfl

/-- C6 (amended): for source paths in `filepath.Clean` form built from
normal components, over well-formed filesystem trees, the emitted
archive entries of different sources never collide at the image root
provided the sources' base names are distinct: every entry of a source
has the source's base name as its first path component, so entries of
two sources with different base names always have different names. -/
theorem claim_C6 (p1 p2 : String) (n1 n2 : FSNode) (es1 es2 : List TarEntry)
    (hp1 : simplePath p1) (hp2 : simplePath p2)
    (hv1 : ValidTree n1) (hv2 : ValidTree n2)
    (hne : baseName p1 ≠ baseName p2)
    (h1 : tarwalk p1 n1 = Except.ok es1)
    (h2 : tarwalk p2 n2 = Except.ok es2) :
    ∀ e1 ∈ es1, ∀ e2 ∈ es2, e1.name ≠ e2.name := by
  intro e1 he1 e2 he2 hcontra
  have r1 := tarwalk_rootName hp1 hv1 h1 e1 he1
  have r2 := tarwalk_rootName hp2 hv2 h2 e2 he2
  rw [hcontra] at r1
  exact hne (r1.symm.trans r2)

theorem claim_C6_witness :
    simplePath "a/foo" ∧ simplePath "b/bar" ∧
    baseName "a/foo" ≠ baseName "b/bar" ∧
    (∀ e1 ∈ [TarEntry.mk "foo" EType.reg [1]],
      ∀ e2 ∈ [TarEntry.mk "bar" EType.reg [2]],
        TarEntry.name e1 ≠ TarEntry.name e2) :=
  ⟨by decide, by decide, by decide,
   claim_C6 "a/foo" "b/bar" (FSNode.file [1]) (FSNode.file [2]) _ _
     (by decide) (by decide) (ValidTree.file [1]) (ValidTree.file [2]) (by decide)
     (by simp [tarwalk, statNode, walkNode, entryName, baseName,
       dropTrailingSlashes, lastComp, FSNode.isDir])
     (by simp [tarwalk, statNode, walkNode, entryName, baseName,
       dropTrailingSlashes, lastComp, FSNode.isDir])⟩

mutual

/-- The canonical form of a filesystem: every directory listing sorted
by name.  Two `FSNode` values with the same canonical form describe the
same on-disk content and differ only in the enumeration order of their
directory listings (the part of a filesystem a second run may observe
in a different order). -/
def canon : FSNode → FSNode
  | FSNode.file v => FSNode.file v
  | FSNode.symlink none => FSNode.symlink none
  | FSNode.symlink (some t) => FSNode.symlink (some (canon t))
  | FSNode.socket => FSNode.socket
  | FSNode.dir children => FSNode.dir (sortChildren (canonChildren children))
termination_by n => sizeOf n

/-- `canon` applied to every child of a listing. -/
def canonChildren : List (String × FSNode) → List (String × FSNode)
  | [] => []
  | (n, c) :: rest => (n, canon c) :: canonChildren rest
termination_by l => sizeOf l

end

theorem canonChildren_orderedInsert (an : String) (ac : FSNode)
    (l : List (String × FSNode)) :
    canonChildren (l.orderedInsert childLE (an, ac)) =
      (canonChildren l).orderedInsert childLE (an, canon ac) := by
  induction l with
  | nil => simp [canonChildren, List.orderedInsert]
  | cons b t ih =>
    obtain ⟨bn, bc⟩ := b
    rw [List.orderedInsert]
    by_cases hc : childLE (an, ac) (bn, bc)
    · rw [if_pos hc]
      have hc2 : childLE (an, canon ac) (bn, canon bc) := hc
      simp only [canonChildren]
      rw [List.orderedInsert, if_pos hc2]
    · rw [if_neg hc]
      have hc2 : ¬childLE (an, canon ac) (bn, canon bc) := hc
      simp only [canonChildren]
      rw [List.orderedInsert, if_neg hc2, ih]

theorem canonChildren_sortChildren (l : List (String × FSNode)) :
    sortChildren (canonChildren l) = canonChildren (sortChildren l) := by
  induction l with
  | nil => simp [canonChildren, sortChildren, List.insertionSort]
  | cons a t ih =>
    obtain ⟨an, ac⟩ := a
    simp only [canonChildren, sortChildren, List.insertionSort]
    rw [← sortChildren, ← sortChildren, ih, ← canonChildren_orderedInsert]

theorem sortChildren_sortChildren (l : List (String × FSNode)) :
    sortChildren (sortChildren l) = sortChildren l :=
  (List.sorted_insertionSort childLE l).insertionSort_eq

theorem walk_canon_aux :
    ∀ k : Nat,
      (∀ node : FSNode, sizeOf node ≤ k → ∀ source b p nm,
        walkNode source b p nm (canon node) = walkNode source b p nm node) ∧
      (∀ l : List (String × FSNode), sizeOf l ≤ k → ∀ source b p,
        walkChildren source b p (canonChildren l) =
          walkChildren source b p l) := by
  intro k
  induction k with
  | zero =>
    constructor
    · intro node hsz
      exact absurd hsz (by have := fsnode_sizeOf_pos node; omega)
    · intro l hsz
      exact absurd hsz (by have := list_sizeOf_pos l; omega)
  | succ k ih =>
    constructor
    · intro node hsz source b p nm
      cases node with
      | file v => simp only [canon]
      | socket => simp only [canon]
      | symlink t =>
        cases t with
        | none => simp only [canon]
        | some t2 => simp only [canon, walkNode]
      | dir children =>
        simp only [canon, walkNode]
        rw [sortChildren_sortChildren, canonChildren_sortChildren]
        have hsz2 : sizeOf (sortChildren children) ≤ k := by
          rw [sizeOf_sortChildren]
          simp only [FSNode.dir.sizeOf_spec] at hsz
          omega
        rw [ih.2 (sortChildren children) hsz2 source b p]
    · intro l hsz source b p
      cases l with
      | nil => simp only [canonChildren]
      | cons hd tl =>
        obtain ⟨n1, c1⟩ := hd
        simp only [canonChildren, walkChildren]
        have hsz1 : sizeOf c1 ≤ k := by
          simp only [List.cons.sizeOf_spec, Prod.mk.sizeOf_spec] at hsz
          omega
        have hsz2 : sizeOf tl ≤ k := by
          simp only [List.cons.sizeOf_spec, Prod.mk.sizeOf_spec] at hsz
          omega
        rw [ih.1 c1 hsz1 source b (goJoin p n1) n1, ih.2 tl hsz2 source b p]

theorem canon_isDir (n : FSNode) : (canon n).isDir = n.isDir := by
  cases n with
  | file v => simp only [canon]
  | socket => simp only [canon]
  | dir children => simp only [canon]; rfl
  | symlink t => cases t with
    | none => simp only [canon]
    | some t2 => simp only [canon]; rfl

theorem statNode_canon :
    ∀ k : Nat, ∀ n : FSNode, sizeOf n ≤ k →
      statNode (canon n) = (statNode n).map canon := by
  intro k
  induction k with
  | zero =>
    intro n hsz
    exact absurd hsz (by have := fsnode_sizeOf_pos n; omega)
  | succ k ih =>
    intro n hsz
    cases n with
    | file v => simp [canon, statNode]
    | socket => simp [canon, statNode]
    | dir children => simp [canon, statNode]
    | symlink t =>
      cases t with
      | none => simp [canon, statNode]
      | some t2 =>
        simp only [canon, statNode]
        have hsz2 : sizeOf t2 ≤ k := by
          simp only [FSNode.symlink.sizeOf_spec, Option.some.sizeOf_spec] at hsz
          omega
        exact ih t2 hsz2

theorem tarwalk_canon (p : String) (n : FSNode) :
    tarwalk p (canon n) = tarwalk p n := by
  unfold tarwalk
  rw [statNode_canon (sizeOf n) n le_rfl]
  cases hs : statNode n with
  | none => rfl
  | some info =>
    simp only [Option.map_some]
    show walkNode p (if (canon info).isDir then baseName p else "") p (baseName p)
        (canon n) =
      walkNode p (if info.isDir then baseName p else "") p (baseName p) n
    rw [canon_isDir]
    exact (walk_canon_aux (sizeOf n)).1 n le_rfl p _ p (baseName p)

theorem createTarFile_canon (l : List (String × FSNode)) :
    createTarFile (l.map (fun q => (q.1, canon q.2))) = createTarFile l := by
  induction l with
  | nil => rfl
  | cons hd tl ih =>
    obtain ⟨p1, n1⟩ := hd
    simp only [List.map, createTarFile]
    rw [tarwalk_canon, ih]

/-- C9: the archive build is deterministic — the emitted sequence of
entries is a pure function of the ordered source paths and the
filesystem's content.  Two filesystem views with the same canonical
content (equal up to the enumeration order of directory listings, which
is the only part of an unchanged filesystem the walker may observe
differently across runs) produce identical archives, because the walker
sorts every directory listing. -/
theorem claim_C9 (srcs1 srcs2 : List (String × FSNode))
    (h : srcs1.map (fun q => (q.1, canon q.2)) =
      srcs2.map (fun q => (q.1, canon q.2))) :
    createTarFile srcs1 = createTarFile srcs2 := by
  rw [← createTarFile_canon srcs1, ← createTarFile_canon srcs2, h]

theorem claim_C9_witness :
    createTarFile [("d", FSNode.dir [("b", FSNode.file [2]), ("a", FSNode.file [1])])] =
      createTarFile [("d", FSNode.dir [("a", FSNode.file [1]), ("b", FSNode.file [2])])] :=
  claim_C9 _ _
    (by simp [canon, canonChildren, sortChildren, List.insertionSort,
      List.orderedInsert, childLE, -String.le_iff_toList_le])
